/-
  Verification of the bbreader merge-and-window pipeline.

  The definitions below are a shallow embedding of the bbreader source
  (the tool that merges time-sorted binary datafiles and applies
  head/tail/trim/time-range windowing).  Pure data flow is modelled with
  Lean lists; a Message is reduced to its ordering timestamp plus an
  opaque tag, which is all the pipeline inspects.
-/
import Mathlib

set_option maxHeartbeats 1000000

/-- A pipeline message: the ordering timestamp (`hdr->time_sent`) and an
opaque payload tag.  The pipeline only ever inspects the timestamp; the
tag keeps distinct messages distinguishable. -/
structure Msg where
  time : Int
  tag : Nat
deriving DecidableEq, Repr

/-- Ordering of messages by their ordering timestamp. -/
def timeLE (a b : Msg) : Prop := a.time ≤ b.time

instance : DecidableRel timeLE := fun a b => inferInstanceAs (Decidable (a.time ≤ b.time))

/-! ## Windowing sinks: TailedOutput and TrimmedOutput

`TailedOutput::send` clones the message onto the back of a FIFO `buf`
and then runs `while (buf.size() > num) { delete buf.front(); buf.pop_front(); }`.
`TrimmedOutput::send` is identical except the popped front is forwarded
to the inner transport (`out->send(buf.front())`) before deletion.
On teardown `~TailedOutput` forwards the whole buffer to the inner
transport in order, while `~TrimmedOutput` discards the whole buffer. -/

/-- The `while (buf.size() > num) pop_front` loop of `TailedOutput::send`:
drops from the front until the buffer holds at most `num` messages. -/
def tailShrink (num : Nat) : List Msg → List Msg
  | [] => []
  | m :: rest => if num < rest.length + 1 then tailShrink num rest else m :: rest

/-- The `while (buf.size() > num) { out->send(front); pop_front; }` loop of
`TrimmedOutput::send`: returns the messages forwarded to the inner
transport (in order) and the remaining buffer. -/
def trimShrink (num : Nat) : List Msg → List Msg × List Msg
  | [] => ([], [])
  | m :: rest =>
    if num < rest.length + 1 then
      ((m :: (trimShrink num rest).1), (trimShrink num rest).2)
    else ([], m :: rest)

/-- `TailedOutput::send`: push the clone, then shrink. Result: new buffer. -/
def tailSend (num : Nat) (buf : List Msg) (m : Msg) : List Msg :=
  tailShrink num (buf ++ [m])

/-- `TrimmedOutput::send`: push the clone, then shrink, forwarding popped
messages.  Result: (messages forwarded to the inner transport, new buffer). -/
def trimSend (num : Nat) (buf : List Msg) (m : Msg) : List Msg × List Msg :=
  trimShrink num (buf ++ [m])

/-- Feeding a message sequence through a `TailedOutput` starting from
buffer `buf`; result is the final buffer, which `~TailedOutput` forwards
to the inner transport in order at teardown. -/
def tailProcess (num : Nat) : List Msg → List Msg → List Msg
  | buf, [] => buf
  | buf, m :: ms => tailProcess num (tailSend num buf m) ms

/-- Feeding a message sequence through a `TrimmedOutput` starting from
buffer `buf`; result is (all messages forwarded to the inner transport in
order, final buffer).  `~TrimmedOutput` discards the final buffer. -/
def trimProcess (num : Nat) : List Msg → List Msg → List Msg × List Msg
  | buf, [] => ([], buf)
  | buf, m :: ms =>
    ((trimSend num buf m).1 ++ (trimProcess num (trimSend num buf m).2 ms).1,
      (trimProcess num (trimSend num buf m).2 ms).2)

/-- The sink chain `main` builds for `trim_len = T > 0` and `tail_len = M > 0`:
messages go through the `TrimmedOutput` (outermost) whose forwards feed the
`TailedOutput`, whose teardown flush is what the terminal transport receives
(the tail sink forwards nothing during normal operation).  The result is
the full sequence of messages the terminal transport ever receives. -/
def runChain (T M : Nat) (msgs : List Msg) : List Msg :=
  tailProcess M [] (trimProcess T [] msgs).1

/-! ## MessageHandler (range filter and head limiter)

`MessageHandler::onMessage` in the source:
```
if (m_headLen > 0 && m_messagesSeen >= m_headLen)      m_stream->stop();
else if (msg.hdr->time_sent >= m_endTv)                m_stream->stop();
else if (msg.hdr->time_sent >= m_startTv) { m_out->send(&msg); ++m_messagesSeen; }
```
-/

/-- What `MessageHandler::onMessage` does with one delivered message:
stop the multiplexer run, forward the message to the output transport,
or silently drop it. -/
inductive HandlerAction where
  | stopRun
  | forwarded
  | dropped
deriving DecidableEq, Repr

/-- The mutable state of `MessageHandler` that `onMessage` consults:
the `--head` limit, the count of messages forwarded so far, and the
configured start/end timevals. -/
structure HandlerState where
  headLen : Nat
  messagesSeen : Nat
  startTv : Int
  endTv : Int
deriving DecidableEq, Repr

/-- `MessageHandler::onMessage` on a message whose `time_sent` is `t`:
returns the action taken and the updated state. -/
def onMessage (st : HandlerState) (t : Int) : HandlerAction × HandlerState :=
  if 0 < st.headLen ∧ st.headLen ≤ st.messagesSeen then (HandlerAction.stopRun, st)
  else if st.endTv ≤ t then (HandlerAction.stopRun, st)
  else if st.startTv ≤ t then
    (HandlerAction.forwarded, { st with messagesSeen := st.messagesSeen + 1 })
  else (HandlerAction.dropped, st)

/-! ## The Multiplexer (DFStreamMplex)

The implementation of `bb::DFStreamMplex` is library code that is not part
of this repository snapshot; only its call sites appear in the source.  The
definitions below are therefore modelled from the specification of the
Multiplexer (spec section 4.3): every live Source caches its next message;
each step selects the live Source whose cached message has the minimum
ordering time, ties broken by registration order (first added wins),
delivers it, and refills that Source; a Source reporting EndOfStream is
removed; a Source reporting ReadError is removed, the run is flagged as
having a file error, and merging continues with the remaining Sources. -/

/-- Modelled from the spec: selection step of the missing
`bb::DFStreamMplex::run` loop.  A Source is a time-sorted list of pending
messages; `pickIdx` returns the registration index and cached head message
of the live Source with the minimum ordering time (first-added wins ties),
or `none` when every Source is exhausted. -/
def pickIdx : List (List Msg) → Option (Nat × Msg)
  | [] => none
  | [] :: rest => (pickIdx rest).map (fun im => (im.1 + 1, im.2))
  | (m :: _) :: rest =>
    match pickIdx rest with
    | none => some (0, m)
    | some im => if im.2.time < m.time then some (im.1 + 1, im.2) else some (0, m)

/-- Modelled from the spec: consuming the cached head message of the
Source at registration index `i` (the Source then refills from its
remaining messages). -/
def consume : List (List Msg) → Nat → List (List Msg)
  | [], _ => []
  | s :: rest, 0 => s.tail :: rest
  | s :: rest, i + 1 => s :: consume rest i

/-- Total number of pending messages across all Sources. -/
def totalLen (srcs : List (List Msg)) : Nat := (srcs.map List.length).sum

/-- Modelled from the spec: the merge loop of the missing
`bb::DFStreamMplex::run`, with explicit fuel (each iteration delivers
exactly one message, so `totalLen` fuel runs the loop to exhaustion). -/
def mplexGo : Nat → List (List Msg) → List Msg
  | 0, _ => []
  | fuel + 1, srcs =>
    match pickIdx srcs with
    | none => []
    | some im => im.2 :: mplexGo fuel (consume srcs im.1)

/-- Modelled from the spec: the sequence of messages the missing
`bb::DFStreamMplex::run` delivers to its consumer callback, given the
registered Sources (each a time-sorted message list), run to exhaustion. -/
def mplexRun (srcs : List (List Msg)) : List Msg :=
  mplexGo (totalLen srcs) srcs

/-- A Source together with its failure behaviour: the messages it yields
successfully, and whether it then fails with ReadError (`true`) or ends
cleanly with EndOfStream (`false`). -/
abbrev ESource := List Msg × Bool

/-- Modelled from the spec: `consume` lifted to Sources that carry a
ReadError flag; the flag of the consumed Source is unchanged. -/
def consumeE : List ESource → Nat → List ESource
  | [], _ => []
  | s :: rest, 0 => (s.1.tail, s.2) :: rest
  | s :: rest, i + 1 => s :: consumeE rest i

/-- Modelled from the spec: the merge loop of the missing
`bb::DFStreamMplex::run` over Sources that may fail mid-read.  When a
Source's messages are exhausted, polling it yields ReadError (if flagged)
or EndOfStream; either way it is removed from the live set and merging
continues.  Result: (messages delivered in order, whether the run was
flagged as having encountered a file error). -/
def mplexGoE : Nat → List ESource → List Msg × Bool
  | 0, srcs => ([], srcs.any (fun s => s.2))
  | fuel + 1, srcs =>
    match pickIdx (srcs.map Prod.fst) with
    | none => ([], srcs.any (fun s => s.2))
    | some im =>
      ((im.2 :: (mplexGoE fuel (consumeE srcs im.1)).1), (mplexGoE fuel (consumeE srcs im.1)).2)

/-- Modelled from the spec: a full `bb::DFStreamMplex::run` over Sources
that may fail mid-read, run to exhaustion of the live set. -/
def mplexRunE (srcs : List ESource) : List Msg × Bool :=
  mplexGoE (totalLen (srcs.map Prod.fst)) srcs

/-! ## Input-path parsing and Source construction (`extract_fname`, `main`) -/

/-- `extract_fname`: split an input specification `str` at the first
`'+'`; the part before it is the filename, the part after it is the
delay text handed to `lexical_cast` (absent when there is no `'+'`,
in which case the delay is default-constructed, i.e. zero). -/
def extract_fname (s : List Char) : List Char × Option (List Char) :=
  match s.findIdx? (fun c => c = '+') with
  | some p => (s.take p, some (s.drop (p + 1)))
  | none => (s, none)

/-- The `isGz` test in `main`: the last `min 3 (length)` characters of the
filename equal `".gz"`. -/
def isGzName (f : List Char) : Bool :=
  decide (f.drop (f.length - min 3 f.length) = ['.', 'g', 'z'])

/-- The kind of historical stream `main` constructs for one input:
a `DFReader` over stdin, a `SingleDFStream` (sequential scan), or a
`DFSearchReader` that has performed `search(start_tv)` (the seek
optimization). -/
inductive SourceKind where
  | stdinReader
  | singleDFStream (name : List Char) (isGz : Bool)
  | searchReader (name : List Char) (isGz : Bool) (searchTarget : Int)
deriving DecidableEq, Repr

/-- The per-input Source construction of `main` (the body of the
`BOOST_FOREACH` loop): extract filename and delay, build the stream
(stdin reader for `"-"`; `SingleDFStream` when no meaningful start time
or linear-only mode; otherwise a `DFSearchReader` seeked to `start_tv`),
and wrap it in a `FixedDelayDFStream` only when the parsed delay is
nonzero.  `parseDelay` abstracts `lexical_cast<ptime_duration_t>`;
`earliestTv` abstracts `timeval_t::earliest`.  Result: the stream kind
and the delay wrapper (`none` when added without delay shift). -/
def openInput (parseDelay : List Char → Int) (earliestTv : Int) (startTv : Int)
    (linearOnly : Bool) (input : List Char) : SourceKind × Option Int :=
  let fd := extract_fname input
  let isGz := isGzName fd.1
  let df :=
    if fd.1 = ['-'] then SourceKind.stdinReader
    else if startTv = earliestTv || linearOnly then SourceKind.singleDFStream fd.1 isGz
    else SourceKind.searchReader fd.1 isGz startTv
  let delay : Int :=
    match fd.2 with
    | none => 0
    | some ds => parseDelay ds
  (df, if delay = 0 then none else some delay)

/-! ## Startup order of `main` (config validation) -/

/-- Externally visible I/O-performing steps of `main` before the merge:
loading the protobuf definition file (`-P`), and opening an input Source. -/
inductive StartupEvent where
  | protoLoad
  | sourceOpen
deriving DecidableEq, Repr

/-- Every startup event is an I/O operation: `protoLoad` reads the
protobuf definition file, `sourceOpen` opens an input file. -/
def isIOEvent : StartupEvent → Bool
  | StartupEvent.protoLoad => true
  | StartupEvent.sourceOpen => true

/-- The startup order of `main`: the protobuf definition file (when
configured) is loaded first; then start/end timevals are computed and
validated (`if (start_tv >= end_tv) return EXIT_FAILURE`); only after
that validation are the input Sources opened and the merge run.  Result:
(I/O events performed, whether the run was rejected at the time check,
messages delivered by the merge). -/
def startupRun (protoFile : Bool) (startTv endTv : Int) (srcs : List (List Msg)) :
    List StartupEvent × Bool × List Msg :=
  let evs := if protoFile then [StartupEvent.protoLoad] else []
  if endTv ≤ startTv then (evs, true, [])
  else (evs ++ srcs.map (fun _ => StartupEvent.sourceOpen), false, mplexRun srcs)

/-! ## The overall run of `main` (source opening, output-file check, merge, exit code) -/

/-- The configuration of one `bbreader` run, as `main` consumes it: the
per-input open results (opening is modelled from the spec: a Source
either opens, yielding its messages and mid-read-failure flag, or fails
to open), the `--ignore-file-errors` switch, whether `--output-file` was
given, and whether that file already exists. -/
structure BBConfig where
  opens : List (Except Unit ESource)
  ignoreFileErrors : Bool
  outputNamed : Bool
  outputExists : Bool
deriving Repr

/-- The observable outcome of a `bbreader` run: the exit status
(`true` = EXIT_SUCCESS), the messages delivered by the merge (hence read
from the Sources and sent down the sink chain), and whether the named
output file was created. -/
structure BBOutcome where
  exitSuccess : Bool
  delivered : List Msg
  outputFileCreated : Bool
deriving DecidableEq, Repr

/-- The `BOOST_FOREACH` open loop of `main`: an input whose open throws
is caught, logged with `LOG_WARN`, and skipped — it is not added to the
multiplexer and, in the source, the catch block does not touch
`file_error`.  The successfully opened Sources are added in order. -/
def openedSources (opens : List (Except Unit ESource)) : List ESource :=
  opens.filterMap (fun r => match r with | Except.ok s => some s | Except.error _ => none)

/-- The run of `main` from the open loop onwards: open the inputs
(failures logged and skipped), fail before the merge if the named output
file already exists (`CFile::exists` check), otherwise run the merge and
compute the exit status from
`file_error = ignore_file_errors ? false : file_error` —
where `file_error` is set only by an error reported during the merge
run, not by an open failure. -/
def bbreaderRun (cfg : BBConfig) : BBOutcome :=
  let srcs := openedSources cfg.opens
  if cfg.outputNamed && cfg.outputExists then
    { exitSuccess := false, delivered := [], outputFileCreated := false }
  else
    let fileError := if cfg.ignoreFileErrors then false else (mplexRunE srcs).2
    { exitSuccess := !fileError, delivered := (mplexRunE srcs).1,
      outputFileCreated := cfg.outputNamed }

instance : DecidableEq (Except Unit ESource) := fun a b =>
  match a, b with
  | Except.ok x, Except.ok y =>
    if h : x = y then isTrue (congrArg Except.ok h)
    else isFalse (fun hc => h (Except.ok.inj hc))
  | Except.error x, Except.error y =>
    match x, y with
    | (), () => isTrue rfl
  | Except.ok _, Except.error _ => isFalse (fun hc => Except.noConfusion hc)
  | Except.error _, Except.ok _ => isFalse (fun hc => Except.noConfusion hc)

/-! ## Concrete run configurations used as witnesses -/

/-- A run in which the second of three inputs fails to open and the two
Sources that do open succeed without mid-read errors. -/
def c5Config : BBConfig :=
  { opens := [Except.ok ([Msg.mk 1 0, Msg.mk 5 0], false), Except.error (),
      Except.ok ([Msg.mk 3 2], false)],
    ignoreFileErrors := false, outputNamed := false, outputExists := false }

/-- A run with a single Source that fails mid-read with a ReadError. -/
def c6Config : BBConfig :=
  { opens := [Except.ok ([Msg.mk 1 0], true)],
    ignoreFileErrors := false, outputNamed := false, outputExists := false }

/-- A run with an `--output-file` whose target already exists. -/
def c10Config : BBConfig :=
  { opens := [Except.ok ([Msg.mk 7 0], false)],
    ignoreFileErrors := false, outputNamed := true, outputExists := true }

theorem tailShrink_eq (num : Nat) : ∀ xs : List Msg, tailShrink num xs = xs.drop (xs.length - num)
  | [] => by simp [tailShrink]
  | m :: rest => by
    rw [tailShrink]
    by_cases h : num < rest.length + 1
    · rw [if_pos h, tailShrink_eq num rest]
      have hlen : (m :: rest).length - num = (rest.length - num) + 1 := by
        simp only [List.length_cons]; omega
      rw [hlen, List.drop_succ_cons]
    · rw [if_neg h]
      have hlen : (m :: rest).length - num = 0 := by
        simp only [List.length_cons]; omega
      rw [hlen, List.drop_zero]

theorem trimShrink_eq (num : Nat) : ∀ xs : List Msg,
    trimShrink num xs = (xs.take (xs.length - num), xs.drop (xs.length - num))
  | [] => by simp [trimShrink]
  | m :: rest => by
    rw [trimShrink]
    by_cases h : num < rest.length + 1
    · rw [if_pos h, trimShrink_eq num rest]
      have hlen : (m :: rest).length - num = (rest.length - num) + 1 := by
        simp only [List.length_cons]; omega
      rw [hlen, List.take_succ_cons, List.drop_succ_cons]
    · rw [if_neg h]
      have hlen : (m :: rest).length - num = 0 := by
        simp only [List.length_cons]; omega
      rw [hlen, List.take_zero, List.drop_zero]

theorem tailProcess_eq (num : Nat) : ∀ (ms buf : List Msg), buf.length ≤ num →
    tailProcess num buf ms = (buf ++ ms).drop ((buf ++ ms).length - num)
  | [], buf, h => by
    have hstep : tailProcess num buf [] = buf := rfl
    have hlen : (buf ++ []).length - num = 0 := by
      simp only [List.append_nil]; omega
    rw [hstep, hlen, List.drop_zero, List.append_nil]
  | m :: ms, buf, h => by
    have hstep : tailProcess num buf (m :: ms) = tailProcess num (tailSend num buf m) ms := rfl
    have hlen : ((buf ++ [m]).drop ((buf ++ [m]).length - num)).length ≤ num := by
      simp only [List.length_drop]; omega
    rw [hstep, tailSend, tailShrink_eq, tailProcess_eq num ms _ hlen]
    have hd : (buf ++ [m]).length - num ≤ (buf ++ [m]).length := Nat.sub_le _ _
    rw [← List.drop_append_of_le_length hd, List.drop_drop]
    have hassoc : buf ++ m :: ms = (buf ++ [m]) ++ ms := by simp
    rw [hassoc]
    congr 1
    simp only [List.length_drop, List.length_append, List.length_cons, List.length_nil]
    omega

theorem trimProcess_eq (num : Nat) : ∀ (ms buf : List Msg), buf.length ≤ num →
    trimProcess num buf ms =
      ((buf ++ ms).take ((buf ++ ms).length - num), (buf ++ ms).drop ((buf ++ ms).length - num))
  | [], buf, h => by
    have hstep : trimProcess num buf [] = ([], buf) := rfl
    have hlen : (buf ++ []).length - num = 0 := by
      simp only [List.append_nil]; omega
    rw [hstep, hlen, List.take_zero, List.drop_zero, List.append_nil]
  | m :: ms, buf, h => by
    have hstep : trimProcess num buf (m :: ms) =
        ((trimSend num buf m).1 ++ (trimProcess num (trimSend num buf m).2 ms).1,
          (trimProcess num (trimSend num buf m).2 ms).2) := rfl
    have hlen : ((buf ++ [m]).drop ((buf ++ [m]).length - num)).length ≤ num := by
      simp only [List.length_drop]; omega
    rw [hstep]
    simp only [trimSend, trimShrink_eq]
    rw [trimProcess_eq num ms _ hlen]
    dsimp only
    have hd : (buf ++ [m]).length - num ≤ (buf ++ [m]).length := Nat.sub_le _ _
    have hsplit : (buf ++ [m]).drop ((buf ++ [m]).length - num) ++ ms =
        ((buf ++ [m]) ++ ms).drop ((buf ++ [m]).length - num) :=
      (List.drop_append_of_le_length hd).symm
    rw [Prod.mk.injEq]
    have hassoc : buf ++ m :: ms = (buf ++ [m]) ++ ms := by simp
    constructor
    · rw [hsplit, hassoc]
      have htake : (buf ++ [m]).take ((buf ++ [m]).length - num) =
          ((buf ++ [m]) ++ ms).take ((buf ++ [m]).length - num) :=
        (List.take_append_of_le_length hd).symm
      rw [htake, ← List.take_add]
      congr 1
      simp only [List.length_drop, List.length_append, List.length_cons, List.length_nil]
      omega
    · rw [hsplit, hassoc, List.drop_drop]
      congr 1
      simp only [List.length_drop, List.length_append, List.length_cons, List.length_nil]
      omega

/-! ## Multiplexer lemmas -/

theorem pickIdx_none : ∀ {srcs : List (List Msg)}, pickIdx srcs = none → ∀ s ∈ srcs, s = []
  | [], _, s, hs => absurd hs (List.not_mem_nil s)
  | [] :: rest, h, s, hs => by
    simp only [pickIdx] at h
    rcases List.mem_cons.mp hs with rfl | hs'
    · rfl
    · exact pickIdx_none (Option.map_eq_none'.mp h) s hs'
  | (m :: ms) :: rest, h, s, hs => by
    simp only [pickIdx] at h
    cases hr : pickIdx rest with
    | none => rw [hr] at h; simp at h
    | some im =>
      rw [hr] at h
      by_cases hc : im.2.time < m.time <;> simp [hc] at h

theorem pickIdx_some_decomp : ∀ (srcs : List (List Msg)) (i : Nat) (m : Msg),
    pickIdx srcs = some (i, m) →
    ∃ pre tl suf, srcs = pre ++ (m :: tl) :: suf ∧ i = pre.length
  | [], i, m, h => by simp [pickIdx] at h
  | [] :: rest, i, m, h => by
    simp only [pickIdx] at h
    cases hr : pickIdx rest with
    | none => rw [hr] at h; simp at h
    | some im =>
      rw [hr] at h
      simp only [Option.map_some', Option.some.injEq, Prod.mk.injEq] at h
      obtain ⟨hi, hm⟩ := h
      obtain ⟨pre, tl, suf, hdec, hip⟩ :=
        pickIdx_some_decomp rest im.1 im.2 (by rw [hr])
      subst hm
      refine ⟨[] :: pre, tl, suf, by rw [hdec]; rfl, ?_⟩
      simp only [List.length_cons]
      omega
  | (m0 :: ms) :: rest, i, m, h => by
    simp only [pickIdx] at h
    cases hr : pickIdx rest with
    | none =>
      simp only [hr] at h
      simp only [Option.some.injEq, Prod.mk.injEq] at h
      obtain ⟨hi, hm⟩ := h
      subst hm
      refine ⟨[], ms, rest, rfl, ?_⟩
      simp [← hi]
    | some im =>
      simp only [hr] at h
      by_cases hc : im.2.time < m0.time
      · rw [if_pos hc] at h
        simp only [Option.some.injEq, Prod.mk.injEq] at h
        obtain ⟨hi, hm⟩ := h
        subst hm
        obtain ⟨pre, tl, suf, hdec, hip⟩ :=
          pickIdx_some_decomp rest im.1 im.2 (by rw [hr])
        refine ⟨(m0 :: ms) :: pre, tl, suf, by rw [hdec]; rfl, ?_⟩
        simp only [List.length_cons]
        omega
      · rw [if_neg hc] at h
        simp only [Option.some.injEq, Prod.mk.injEq] at h
        obtain ⟨hi, hm⟩ := h
        subst hm
        refine ⟨[], ms, rest, rfl, ?_⟩
        simp [← hi]

theorem consume_decomp (m : Msg) : ∀ (pre : List (List Msg)) (tl : List Msg)
    (suf : List (List Msg)),
    consume (pre ++ (m :: tl) :: suf) pre.length = pre ++ tl :: suf
  | [], tl, suf => rfl
  | p :: pre, tl, suf => by
    have hstep : consume ((p :: pre) ++ (m :: tl) :: suf) (p :: pre).length =
        p :: consume (pre ++ (m :: tl) :: suf) pre.length := rfl
    rw [hstep, consume_decomp m pre tl suf]
    exact rfl

theorem pickIdx_min : ∀ (srcs : List (List Msg)) (i : Nat) (m : Msg),
    pickIdx srcs = some (i, m) → ∀ s ∈ srcs, ∀ a tl, s = a :: tl → m.time ≤ a.time
  | [], i, m, h => by simp [pickIdx] at h
  | [] :: rest, i, m, h => by
    simp only [pickIdx] at h
    cases hr : pickIdx rest with
    | none => rw [hr] at h; simp at h
    | some im =>
      rw [hr] at h
      simp only [Option.map_some', Option.some.injEq, Prod.mk.injEq] at h
      obtain ⟨hi, hm⟩ := h
      subst hm
      intro s hs a tl hstl
      rcases List.mem_cons.mp hs with rfl | hs'
      · exact absurd hstl (by simp)
      · exact pickIdx_min rest im.1 im.2 (by rw [hr]) s hs' a tl hstl
  | (m0 :: ms) :: rest, i, m, h => by
    simp only [pickIdx] at h
    cases hr : pickIdx rest with
    | none =>
      simp only [hr] at h
      simp only [Option.some.injEq, Prod.mk.injEq] at h
      obtain ⟨hi, hm⟩ := h
      subst hm
      intro s hs a tl hstl
      rcases List.mem_cons.mp hs with rfl | hs'
      · cases hstl; exact le_refl _
      · have : s = [] := pickIdx_none hr s hs'
        rw [this] at hstl
        exact absurd hstl (by simp)
    | some im =>
      simp only [hr] at h
      by_cases hc : im.2.time < m0.time
      · rw [if_pos hc] at h
        simp only [Option.some.injEq, Prod.mk.injEq] at h
        obtain ⟨hi, hm⟩ := h
        subst hm
        intro s hs a tl hstl
        rcases List.mem_cons.mp hs with rfl | hs'
        · cases hstl; exact le_of_lt hc
        · exact pickIdx_min rest im.1 im.2 (by rw [hr]) s hs' a tl hstl
      · rw [if_neg hc] at h
        simp only [Option.some.injEq, Prod.mk.injEq] at h
        obtain ⟨hi, hm⟩ := h
        subst hm
        intro s hs a tl hstl
        rcases List.mem_cons.mp hs with rfl | hs'
        · cases hstl; exact le_refl _
        · have h1 : im.2.time ≤ a.time :=
            pickIdx_min rest im.1 im.2 (by rw [hr]) s hs' a tl hstl
          have h2 : m0.time ≤ im.2.time := le_of_not_lt hc
          exact le_trans h2 h1

theorem totalLen_append (a b : List (List Msg)) :
    totalLen (a ++ b) = totalLen a + totalLen b := by
  simp [totalLen]

theorem totalLen_cons (s : List Msg) (rest : List (List Msg)) :
    totalLen (s :: rest) = s.length + totalLen rest := by
  simp [totalLen]

theorem mem_mplexGo : ∀ (fuel : Nat) (srcs : List (List Msg)) (x : Msg),
    x ∈ mplexGo fuel srcs → ∃ s ∈ srcs, x ∈ s
  | 0, srcs, x, h => by simp [mplexGo] at h
  | fuel + 1, srcs, x, h => by
    rw [mplexGo] at h
    cases hp : pickIdx srcs with
    | none => rw [hp] at h; simp at h
    | some im =>
      rw [hp] at h
      obtain ⟨pre, tl, suf, hdec, hi⟩ := pickIdx_some_decomp _ _ _ hp
      have hc : consume srcs im.1 = pre ++ tl :: suf := by
        rw [hdec, hi]; exact consume_decomp im.2 pre tl suf
      rcases List.mem_cons.mp h with rfl | hx
      · exact ⟨im.2 :: tl,
          by rw [hdec]; exact List.mem_append_right _ (List.mem_cons_self _ _),
          List.mem_cons_self _ _⟩
      · obtain ⟨s, hs, hxs⟩ := mem_mplexGo fuel (consume srcs im.1) x hx
        rw [hc] at hs
        rcases List.mem_append.mp hs with hs1 | hs2
        · exact ⟨s, by rw [hdec]; exact List.mem_append_left _ hs1, hxs⟩
        · rcases List.mem_cons.mp hs2 with rfl | hs3
          · exact ⟨im.2 :: s,
              by rw [hdec]; exact List.mem_append_right _ (List.mem_cons_self _ _),
              List.mem_cons_of_mem _ hxs⟩
          · exact ⟨s,
              by rw [hdec]; exact List.mem_append_right _ (List.mem_cons_of_mem _ hs3), hxs⟩

theorem mplexGo_sorted : ∀ (fuel : Nat) (srcs : List (List Msg)),
    (∀ s ∈ srcs, List.Sorted timeLE s) → List.Sorted timeLE (mplexGo fuel srcs)
  | 0, _, _ => by simp [mplexGo]
  | fuel + 1, srcs, h => by
    rw [mplexGo]
    cases hp : pickIdx srcs with
    | none => simp
    | some im =>
      obtain ⟨pre, tl, suf, hdec, hi⟩ := pickIdx_some_decomp _ _ _ hp
      have hc : consume srcs im.1 = pre ++ tl :: suf := by
        rw [hdec, hi]; exact consume_decomp im.2 pre tl suf
      have hmemtl : (im.2 :: tl) ∈ srcs := by
        rw [hdec]; exact List.mem_append_right _ (List.mem_cons_self _ _)
      have hsort' : ∀ s ∈ consume srcs im.1, List.Sorted timeLE s := by
        rw [hc]
        intro s hs
        rcases List.mem_append.mp hs with h1 | h2
        · exact h s (by rw [hdec]; exact List.mem_append_left _ h1)
        · rcases List.mem_cons.mp h2 with rfl | h3
          · exact (h _ hmemtl).of_cons
          · exact h s (by rw [hdec]; exact List.mem_append_right _ (List.mem_cons_of_mem _ h3))
      have hbound : ∀ s ∈ srcs, ∀ b ∈ s, im.2.time ≤ b.time := by
        intro s hs b hb
        cases s with
        | nil => simp at hb
        | cons a t =>
          have h1 : im.2.time ≤ a.time := pickIdx_min _ _ _ hp _ hs a t rfl
          rcases List.mem_cons.mp hb with rfl | hbt
          · exact h1
          · exact le_trans h1 ((List.sorted_cons.mp (h _ hs)).1 b hbt)
      rw [List.sorted_cons]
      refine ⟨?_, mplexGo_sorted fuel _ hsort'⟩
      intro b hb
      obtain ⟨s, hs, hbs⟩ := mem_mplexGo fuel _ b hb
      rw [hc] at hs
      rcases List.mem_append.mp hs with hs1 | hs2
      · exact hbound s (by rw [hdec]; exact List.mem_append_left _ hs1) b hbs
      · rcases List.mem_cons.mp hs2 with rfl | hs3
        · exact hbound _ hmemtl b (List.mem_cons_of_mem _ hbs)
        · exact hbound s
            (by rw [hdec]; exact List.mem_append_right _ (List.mem_cons_of_mem _ hs3)) b hbs

theorem mplexGo_perm : ∀ (fuel : Nat) (srcs : List (List Msg)), totalLen srcs ≤ fuel →
    (mplexGo fuel srcs).Perm srcs.flatten
  | 0, srcs, hf => by
    have h0 : srcs.flatten.length = 0 := by
      rw [List.length_flatten]; exact Nat.le_zero.mp hf
    rw [List.length_eq_zero] at h0
    rw [mplexGo, h0]
  | fuel + 1, srcs, hf => by
    rw [mplexGo]
    cases hp : pickIdx srcs with
    | none =>
      have hflat : srcs.flatten = [] := List.flatten_eq_nil_iff.mpr (pickIdx_none hp)
      rw [hflat]
    | some im =>
      obtain ⟨pre, tl, suf, hdec, hi⟩ := pickIdx_some_decomp _ _ _ hp
      have hc : consume srcs im.1 = pre ++ tl :: suf := by
        rw [hdec, hi]; exact consume_decomp im.2 pre tl suf
      have hlt : totalLen (consume srcs im.1) ≤ fuel := by
        rw [hdec] at hf
        rw [hc]
        rw [totalLen_append, totalLen_cons] at hf ⊢
        simp only [List.length_cons] at hf
        omega
      have ih := mplexGo_perm fuel _ hlt
      rw [hc] at ih
      dsimp only
      rw [hc, hdec]
      have hflat : (pre ++ (im.2 :: tl) :: suf).flatten =
          pre.flatten ++ im.2 :: (tl ++ suf.flatten) := by
        rw [List.flatten_append, List.flatten_cons]
        simp
      have hflat2 : (pre ++ tl :: suf).flatten = pre.flatten ++ (tl ++ suf.flatten) := by
        rw [List.flatten_append, List.flatten_cons]
      rw [hflat]
      refine List.Perm.trans (List.Perm.cons im.2 ?_) List.perm_middle.symm
      rw [← hflat2]
      exact ih

theorem consumeE_map_fst : ∀ (srcs : List ESource) (i : Nat),
    (consumeE srcs i).map Prod.fst = consume (srcs.map Prod.fst) i
  | [], _ => rfl
  | _ :: _, 0 => rfl
  | s :: rest, i + 1 => by
    simp only [consumeE, List.map_cons, consume]
    rw [consumeE_map_fst rest i]

theorem consumeE_any : ∀ (srcs : List ESource) (i : Nat),
    (consumeE srcs i).any (fun s => s.2) = srcs.any (fun s => s.2)
  | [], _ => rfl
  | _ :: _, 0 => rfl
  | s :: rest, i + 1 => by
    simp only [consumeE, List.any_cons]
    rw [consumeE_any rest i]

theorem mplexGoE_spec : ∀ (fuel : Nat) (srcs : List ESource),
    (mplexGoE fuel srcs).1 = mplexGo fuel (srcs.map Prod.fst) ∧
    (mplexGoE fuel srcs).2 = srcs.any (fun s => s.2)
  | 0, srcs => ⟨rfl, rfl⟩
  | fuel + 1, srcs => by
    rw [mplexGoE, mplexGo]
    cases hp : pickIdx (srcs.map Prod.fst) with
    | none => exact ⟨rfl, rfl⟩
    | some im =>
      have ih := mplexGoE_spec fuel (consumeE srcs im.1)
      dsimp only
      refine ⟨?_, ?_⟩
      · rw [ih.1, consumeE_map_fst]
      · rw [ih.2, consumeE_any]

theorem mplexRunE_spec (srcs : List ESource) :
    (mplexRunE srcs).1 = mplexRun (srcs.map Prod.fst) ∧
    (mplexRunE srcs).2 = srcs.any (fun s => s.2) :=
  mplexGoE_spec _ _

/-! ## Claim theorems -/

/-- C1: for every run over any set of input Sources each internally
sorted by ordering time, the sequence of Messages the Multiplexer
delivers to the consumer callback is non-decreasing in ordering time,
regardless of how the input data is distributed across the Sources. -/
theorem c1_mplex_output_sorted (srcs : List (List Msg))
    (h : ∀ s ∈ srcs, List.Sorted timeLE s) : List.Sorted timeLE (mplexRun srcs) :=
  mplexGo_sorted (totalLen srcs) srcs h

theorem c1_mplex_output_sorted_witness :
    (∀ s ∈ [[Msg.mk 1 0, Msg.mk 2 0, Msg.mk 5 0], [Msg.mk 3 1, Msg.mk 4 1], [Msg.mk 2 2]],
      List.Sorted timeLE s) ∧
    List.Sorted timeLE
      (mplexRun [[Msg.mk 1 0, Msg.mk 2 0, Msg.mk 5 0], [Msg.mk 3 1, Msg.mk 4 1], [Msg.mk 2 2]]) :=
  ⟨by decide, c1_mplex_output_sorted _ (by decide)⟩

/-- C2: for every finite stream of `K` Messages sent through the sink
chain built with `trim_count = T > 0` followed (inner) by
`tail_count = M > 0`, after teardown the terminal transport has received
exactly the Messages at 0-indexed positions `[max 0 (K-T-M), K-T)` of
the input stream (expressed below with truncated Nat subtraction as
`(take (K-T)).drop (K-T-M)`), in their original order; in particular it
receives nothing when `K ≤ T`. -/
theorem c2_trim_tail_window (T M : Nat) (msgs : List Msg) (hT : 0 < T) (hM : 0 < M) :
    runChain T M msgs = (msgs.take (msgs.length - T)).drop (msgs.length - T - M) ∧
    (msgs.length ≤ T → runChain T M msgs = []) := by
  have htrim : (trimProcess T [] msgs).1 = msgs.take (msgs.length - T) := by
    rw [trimProcess_eq T msgs [] (by simp)]
    simp
  have h1 : runChain T M msgs = (msgs.take (msgs.length - T)).drop (msgs.length - T - M) := by
    show tailProcess M [] (trimProcess T [] msgs).1 = _
    rw [htrim]
    have htl := tailProcess_eq M (msgs.take (msgs.length - T)) [] (by simp)
    simp only [List.nil_append] at htl
    rw [htl]
    congr 1
    rw [List.length_take]
    omega
  refine ⟨h1, fun hK => ?_⟩
  rw [h1]
  have h0 : msgs.length - T = 0 := by omega
  rw [h0, List.take_zero, List.drop_nil]

theorem c2_trim_tail_window_witness :
    0 < 1 ∧ 0 < 2 ∧
    runChain 1 2 [Msg.mk 1 0, Msg.mk 2 0, Msg.mk 3 0, Msg.mk 4 0] = [Msg.mk 2 0, Msg.mk 3 0] :=
  ⟨Nat.one_pos, Nat.zero_lt_two,
    ((c2_trim_tail_window 1 2 [Msg.mk 1 0, Msg.mk 2 0, Msg.mk 3 0, Msg.mk 4 0]
      Nat.one_pos Nat.zero_lt_two).1).trans (by decide)⟩

/-- C3: for every delivered Message, if its time equals `end_time` it is
not forwarded to the output transport and the run is stopped; if it
equals `start_time` (with `start_time` strictly before `end_time` and
the head limit not yet reached) it is forwarded. -/
theorem c3_range_boundary (st : HandlerState) (t : Int) :
    (t = st.endTv → (onMessage st t).1 = HandlerAction.stopRun) ∧
    (t = st.startTv → st.startTv < st.endTv →
      (st.headLen = 0 ∨ st.messagesSeen < st.headLen) →
      (onMessage st t).1 = HandlerAction.forwarded) := by
  constructor
  · intro ht
    subst ht
    by_cases h1 : 0 < st.headLen ∧ st.headLen ≤ st.messagesSeen
    · simp [onMessage, h1]
    · simp [onMessage, h1]
  · intro ht hlt hhead
    subst ht
    have h1 : ¬(0 < st.headLen ∧ st.headLen ≤ st.messagesSeen) := by
      rcases hhead with h | h <;> omega
    have h2 : ¬(st.endTv ≤ st.startTv) := by omega
    simp [onMessage, h1, h2]

theorem c3_range_boundary_witness :
    (onMessage (HandlerState.mk 0 0 0 5) 5).1 = HandlerAction.stopRun ∧
    (onMessage (HandlerState.mk 0 0 0 5) 0).1 = HandlerAction.forwarded :=
  ⟨(c3_range_boundary (HandlerState.mk 0 0 0 5) 5).1 rfl,
    (c3_range_boundary (HandlerState.mk 0 0 0 5) 0).2 rfl (by decide) (Or.inl rfl)⟩

/-- C4: whenever a Source fails mid-read with a ReadError during the
merge, that Source is removed from the live set and merging continues
with the remaining Sources until they are exhausted (the delivered
sequence equals the merge of every Source's successfully-read messages),
and the run is flagged as having encountered a file error; the read
error does not stop the merge. -/
theorem c4_read_error_isolation (srcs : List ESource)
    (h : ∃ s ∈ srcs, s.2 = true) :
    (mplexRunE srcs).1 = mplexRun (srcs.map Prod.fst) ∧ (mplexRunE srcs).2 = true := by
  refine ⟨(mplexRunE_spec srcs).1, ?_⟩
  rw [(mplexRunE_spec srcs).2, List.any_eq_true]
  obtain ⟨s, hs, h2⟩ := h
  exact ⟨s, hs, h2⟩

theorem c4_read_error_isolation_witness :
    (∃ s ∈ [([Msg.mk 1 0], true), ([Msg.mk 2 1, Msg.mk 3 1], false)], s.2 = true) ∧
    (mplexRunE [([Msg.mk 1 0], true), ([Msg.mk 2 1, Msg.mk 3 1], false)]).1 =
      mplexRun ([([Msg.mk 1 0], true), ([Msg.mk 2 1, Msg.mk 3 1], false)].map Prod.fst) ∧
    (mplexRunE [([Msg.mk 1 0], true), ([Msg.mk 2 1, Msg.mk 3 1], false)]).2 = true :=
  ⟨by decide,
    (c4_read_error_isolation [([Msg.mk 1 0], true), ([Msg.mk 2 1, Msg.mk 3 1], false)]
      (by decide)).1,
    (c4_read_error_isolation [([Msg.mk 1 0], true), ([Msg.mk 2 1, Msg.mk 3 1], false)]
      (by decide)).2⟩

/-- C5 counterexample: in a run where one of three inputs fails to open,
`ignore_file_errors` is not set, and the opened Sources read cleanly, the
process exits with success — refuting the claim that the exit status
reports a file error.  (`main`'s per-input catch only logs the open
failure; it never sets `file_error`.) -/
theorem c5_counterexample :
    Except.error () ∈ c5Config.opens ∧ c5Config.ignoreFileErrors = false ∧
    (bbreaderRun c5Config).exitSuccess = true := by decide

/-- C5 (amended): if one of several input files fails to open, the run
still emits the correctly merged union of the Sources that did open
(the multiplexer merge of exactly those Sources, a permutation of their
union), but the open failure does not affect the exit status: the
process exits with success, because only an error reported during the
merge run sets the file-error flag. -/
theorem c5_open_failure_isolation (cfg : BBConfig)
    (hopenfail : ∃ r ∈ cfg.opens, r = Except.error ())
    (hnoread : ∀ s ∈ openedSources cfg.opens, s.2 = false)
    (hout : ¬(cfg.outputNamed = true ∧ cfg.outputExists = true)) :
    (bbreaderRun cfg).delivered = mplexRun ((openedSources cfg.opens).map Prod.fst) ∧
    (bbreaderRun cfg).delivered.Perm ((openedSources cfg.opens).map Prod.fst).flatten ∧
    (bbreaderRun cfg).exitSuccess = true := by
  have hcond : (cfg.outputNamed && cfg.outputExists) = false := by
    cases h1 : cfg.outputNamed <;> cases h2 : cfg.outputExists <;> simp_all
  have hflag : (mplexRunE (openedSources cfg.opens)).2 = false := by
    rw [(mplexRunE_spec _).2, List.any_eq_false]
    intro s hs
    simp [hnoread s hs]
  have hbb : bbreaderRun cfg =
      { exitSuccess := !(if cfg.ignoreFileErrors then false
            else (mplexRunE (openedSources cfg.opens)).2),
        delivered := (mplexRunE (openedSources cfg.opens)).1,
        outputFileCreated := cfg.outputNamed } := by
    simp only [bbreaderRun, hcond, Bool.false_eq_true, if_false]
  rw [hbb]
  refine ⟨(mplexRunE_spec _).1, ?_, ?_⟩
  · show (mplexRunE (openedSources cfg.opens)).1.Perm _
    rw [(mplexRunE_spec _).1]
    exact mplexGo_perm _ _ le_rfl
  · show (!(if cfg.ignoreFileErrors then false
        else (mplexRunE (openedSources cfg.opens)).2)) = true
    rw [hflag]
    cases cfg.ignoreFileErrors <;> rfl

theorem c5_open_failure_isolation_witness :
    (∃ r ∈ c5Config.opens, r = Except.error ()) ∧
    (bbreaderRun c5Config).delivered = mplexRun ((openedSources c5Config.opens).map Prod.fst) ∧
    (bbreaderRun c5Config).exitSuccess = true := by
  have h := c5_open_failure_isolation c5Config (by decide) (by decide) (by decide)
  exact ⟨by decide, h.1, h.2.2⟩

/-- C6: (given the run was not rejected by the output-file-exists check,
i.e. the merge actually ran) the process exits with success if and only
if no unrecovered file error occurred during the merge run or
`ignore_file_errors` was set; and the messages delivered (emitted) are
exactly what the merge run produced, independent of the exit status. -/
theorem c6_exit_status (cfg : BBConfig)
    (hout : ¬(cfg.outputNamed = true ∧ cfg.outputExists = true)) :
    ((bbreaderRun cfg).exitSuccess = true ↔
      ((mplexRunE (openedSources cfg.opens)).2 = false ∨ cfg.ignoreFileErrors = true)) ∧
    (bbreaderRun cfg).delivered = (mplexRunE (openedSources cfg.opens)).1 := by
  have hcond : (cfg.outputNamed && cfg.outputExists) = false := by
    cases h1 : cfg.outputNamed <;> cases h2 : cfg.outputExists <;> simp_all
  have hbb : bbreaderRun cfg =
      { exitSuccess := !(if cfg.ignoreFileErrors then false
            else (mplexRunE (openedSources cfg.opens)).2),
        delivered := (mplexRunE (openedSources cfg.opens)).1,
        outputFileCreated := cfg.outputNamed } := by
    simp only [bbreaderRun, hcond, Bool.false_eq_true, if_false]
  rw [hbb]
  refine ⟨?_, rfl⟩
  show (!(if cfg.ignoreFileErrors then false
      else (mplexRunE (openedSources cfg.opens)).2)) = true ↔ _
  cases hig : cfg.ignoreFileErrors <;>
    cases hfe : (mplexRunE (openedSources cfg.opens)).2 <;> simp

theorem c6_exit_status_witness :
    ¬(c6Config.outputNamed = true ∧ c6Config.outputExists = true) ∧
    ((bbreaderRun c6Config).exitSuccess = true ↔
      ((mplexRunE (openedSources c6Config.opens)).2 = false ∨
        c6Config.ignoreFileErrors = true)) :=
  ⟨by decide, (c6_exit_status c6Config (by decide)).1⟩

/-- C7 counterexample: in a configuration with a protobuf definition
file and `end_time` before `start_time`, the run is rejected, but the
protobuf definition file has already been loaded — an I/O operation
performed before the rejection, refuting the claim's "before any I/O is
performed". -/
theorem c7_counterexample :
    (startupRun true 5 3 [[Msg.mk 0 0]]).2.1 = true ∧
    (startupRun true 5 3 [[Msg.mk 0 0]]).1 = [StartupEvent.protoLoad] ∧
    isIOEvent StartupEvent.protoLoad = true := by decide

/-- C7 (amended): for every configuration in which `end_time` is before
`start_time`, the run is rejected with a failure status before any
Source is opened, and no output is produced; the only I/O possibly
performed before the rejection is loading the protobuf definition file
when one is configured. -/
theorem c7_config_rejected_early (protoFile : Bool) (startTv endTv : Int)
    (srcs : List (List Msg)) (h : endTv < startTv) :
    (startupRun protoFile startTv endTv srcs).2.1 = true ∧
    StartupEvent.sourceOpen ∉ (startupRun protoFile startTv endTv srcs).1 ∧
    (startupRun protoFile startTv endTv srcs).2.2 = [] := by
  have hle : endTv ≤ startTv := le_of_lt h
  have hs : startupRun protoFile startTv endTv srcs =
      ((if protoFile then [StartupEvent.protoLoad] else []), true, []) := by
    simp only [startupRun, if_pos hle]
  rw [hs]
  refine ⟨rfl, ?_, rfl⟩
  cases protoFile <;> decide

theorem c7_config_rejected_early_witness :
    ((3 : Int) < 5) ∧
    (startupRun false 5 3 [[Msg.mk 0 0]]).2.1 = true ∧
    StartupEvent.sourceOpen ∉ (startupRun false 5 3 [[Msg.mk 0 0]]).1 ∧
    (startupRun false 5 3 [[Msg.mk 0 0]]).2.2 = [] := by
  have h := c7_config_rejected_early false 5 3 [[Msg.mk 0 0]] (by decide)
  exact ⟨by decide, h.1, h.2.1, h.2.2⟩

/-- C8: for every sequence of send operations on a trim-window or
tail-window sink constructed with capacity `N`, after each send
completes the sink's internal FIFO buffer holds at most `N` Messages,
in insertion order (the buffer is a contiguous suffix of the messages
sent so far).  The statement quantifies over the message sequence `ms`;
the buffer state after the `k`-th send of a longer run is the state
after processing that length-`k` prefix, which is itself such a
sequence. -/
theorem c8_buffer_bounded (N : Nat) (ms : List Msg) :
    ((tailProcess N [] ms).length ≤ N ∧ List.IsSuffix (tailProcess N [] ms) ms) ∧
    ((trimProcess N [] ms).2.length ≤ N ∧ List.IsSuffix (trimProcess N [] ms).2 ms) := by
  have ht : tailProcess N [] ms = ms.drop (ms.length - N) := by
    have h := tailProcess_eq N ms [] (by simp)
    simpa using h
  have hr : (trimProcess N [] ms).2 = ms.drop (ms.length - N) := by
    rw [trimProcess_eq N ms [] (by simp)]
    simp
  rw [ht, hr]
  refine ⟨⟨?_, List.drop_suffix _ _⟩, ?_, List.drop_suffix _ _⟩ <;>
    (rw [List.length_drop]; omega)

/-- C9: an input path specification that is the standard-input marker
`"-"` is read from standard input (a `DFReader` over the stdin handle,
which never performs the binary-search seek — forced linear mode) with
no delay shift applied (it is added to the multiplexer without a
`FixedDelayDFStream` wrapper), for every combination of the remaining
options (start time, linear-only flag) and any delay parser. -/
theorem c9_stdin_marker (parseDelay : List Char → Int) (earliestTv startTv : Int)
    (linearOnly : Bool) :
    openInput parseDelay earliestTv startTv linearOnly ['-'] =
      (SourceKind.stdinReader, none) := rfl

/-- C10: if an output filename is configured and a file with that name
already exists, the process exits with failure before the merge runs:
no Messages are read from any Source (the merge never runs, nothing is
delivered), nothing is written, and the existing file is left unchanged
(the output file is never created or opened for writing). -/
theorem c10_output_exists_guard (cfg : BBConfig)
    (h1 : cfg.outputNamed = true) (h2 : cfg.outputExists = true) :
    bbreaderRun cfg =
      { exitSuccess := false, delivered := [], outputFileCreated := false } := by
  simp only [bbreaderRun, h1, h2]
  rfl

theorem c10_output_exists_guard_witness :
    c10Config.outputNamed = true ∧ c10Config.outputExists = true ∧
    bbreaderRun c10Config =
      { exitSuccess := false, delivered := [], outputFileCreated := false } :=
  ⟨rfl, rfl, c10_output_exists_guard c10Config rfl rfl⟩
